import Mathlib

/-!
PrivateDAOQuadraticVoting — shallow embedding.

Shallow embedding of the Solidity contract `PrivateDAOQuadraticVoting`
(src/frontend/web/src/App.tsx, lines 599-740).  An `euint32` ciphertext
handle is modelled by the plaintext value it encrypts, a natural number
below 2^32; the homomorphic operations `FHE.add` and `FHE.mul` act
modulo 2^32 (euint32 arithmetic wraps) and decryption is the identity
on the model.  Addresses and timestamps are natural numbers.  A
reverting `require` (or a checked-arithmetic panic) is modelled as
`Except.error`; a revert rolls back every write of the call, so in the
model an error simply returns no new state and the caller keeps the
pre-call state unchanged.
-/

namespace QuadraticVoteFHE

/-- The error kinds named by the specification (§7).  The contract
itself only ever reverts with "Voting closed", "Already voted",
"Voting still open", "Insufficient balance", a failed
`FHE.checkSignatures` and checked-arithmetic overflow, which map to
`VotingClosed`, `AlreadyVoted`, `VotingStillOpen`,
`InsufficientBalance`, `InvalidProof` and `Overflow`; the remaining
kinds are present only so that claims naming them can be stated. -/
inductive VMError where
  | ProposalNotFound
  | VotingClosed
  | VotingStillOpen
  | AlreadyVoted
  | InsufficientBalance
  | VoteCountExceedsLimit
  | RequestAlreadyPending
  | UnknownRequest
  | AlreadyFulfilled
  | InvalidProof
  | AlreadyDecrypted
  | Overflow
  deriving DecidableEq

/-- Modulus of `euint32` arithmetic. -/
def UINT32_MOD : Nat := 2 ^ 32

/-- Modulus of `uint256` arithmetic (Solidity 0.8 checked arithmetic
reverts instead of wrapping at this bound). -/
def UINT256_MOD : Nat := 2 ^ 256

/-- Source line 629: `VOTING_PERIOD = 7 days`, in seconds. -/
def VOTING_PERIOD : Nat := 7 * 24 * 60 * 60

/-- Source line 630: `MAX_VOTES_PER_PROPOSAL = 100`.  The constant is
declared but never read anywhere else in the contract. -/
def MAX_VOTES_PER_PROPOSAL : Nat := 100

/-- Model of `FHE.add` on `euint32` handles: addition of the underlying
plaintexts modulo 2^32. -/
def fheAdd (a b : Nat) : Nat := (a + b) % UINT32_MOD

/-- Model of `FHE.mul` on `euint32` handles: multiplication of the
underlying plaintexts modulo 2^32. -/
def fheMul (a b : Nat) : Nat := (a * b) % UINT32_MOD

/-- Model of `FHE.asEuint32 n`: the trivial encryption of `n`. -/
def fheAsEuint32 (n : Nat) : Nat := n % UINT32_MOD

/-- Model of decrypting a handle: the identity, since a handle is
modelled by the plaintext it encrypts. -/
def fheDecrypt (h : Nat) : Nat := h

/-- Source lines 607-614: the `EncryptedProposal` struct. -/
structure EncryptedProposal where
  id : Nat
  encryptedTitle : Nat
  encryptedDetails : Nat
  encryptedVoteCount : Nat
  encryptedCostSum : Nat
  endTime : Nat
  deriving DecidableEq

/-- Source lines 617-620: the `MemberVote` struct. -/
structure MemberVote where
  encryptedVotes : Nat
  hasVoted : Bool
  deriving DecidableEq

/-- Solidity zero-initialised mapping entry for `EncryptedProposal`. -/
def defaultProposal : EncryptedProposal :=
  { id := 0
    encryptedTitle := 0
    encryptedDetails := 0
    encryptedVoteCount := 0
    encryptedCostSum := 0
    endTime := 0 }

/-- Solidity zero-initialised mapping entry for `MemberVote`. -/
def defaultMemberVote : MemberVote :=
  { encryptedVotes := 0
    hasVoted := false }

/-- Source lines 623-626: the contract storage.  Solidity mappings are
total functions with zero defaults; addresses are modelled as `Nat`. -/
structure ContractState where
  proposalCount : Nat
  encryptedProposals : Nat → EncryptedProposal
  memberVotes : Nat → Nat → MemberVote
  memberTokenBalances : Nat → Nat

/-- Freshly deployed contract: every storage slot holds its zero
value. -/
def initState : ContractState :=
  { proposalCount := 0
    encryptedProposals := fun _ => defaultProposal
    memberVotes := fun _ _ => defaultMemberVote
    memberTokenBalances := fun _ => 0 }

/-- Source lines 650-667, `createEncryptedProposal`: increments
`proposalCount` (checked `uint256` arithmetic, reverting on overflow —
unreachable in practice, as it would take 2^256 transactions), then
stores a fresh proposal under the new id with both accumulators set to
the encryption of zero and `endTime = block.timestamp +
VOTING_PERIOD`. -/
def createEncryptedProposal (s : ContractState)
    (now encryptedTitle encryptedDetails : Nat) :
    Except VMError ContractState :=
  if s.proposalCount + 1 < UINT256_MOD then
    .ok { s with
      proposalCount := s.proposalCount + 1
      encryptedProposals := fun pid =>
        if pid = s.proposalCount + 1 then
          { id := s.proposalCount + 1
            encryptedTitle := encryptedTitle
            encryptedDetails := encryptedDetails
            encryptedVoteCount := fheAsEuint32 0
            encryptedCostSum := fheAsEuint32 0
            endTime := now + VOTING_PERIOD }
        else s.encryptedProposals pid }
  else .error .Overflow

/-- Source lines 670-694, `castEncryptedVote`: the `votingOpen`
modifier requires `block.timestamp < endTime` (reverting "Voting
closed"), then the body requires `hasVoted` to be false (reverting
"Already voted"), stores the member's encrypted vote with
`hasVoted = true`, adds the encrypted count into
`encryptedVoteCount`, and adds `FHE.mul(v, v)` into
`encryptedCostSum`.  No other storage is read or written: in
particular the `sufficientTokens` modifier (lines 644-647) is not
attached to this function, no plaintext vote count is passed, and
`memberTokenBalances` is untouched. -/
def castEncryptedVote (s : ContractState)
    (now sender proposalId encryptedVoteCount : Nat) :
    Except VMError ContractState :=
  if now < (s.encryptedProposals proposalId).endTime then
    if (s.memberVotes proposalId sender).hasVoted then
      .error .AlreadyVoted
    else
      .ok { s with
        memberVotes := fun pid m =>
          if pid = proposalId ∧ m = sender then
            { encryptedVotes := encryptedVoteCount, hasVoted := true }
          else s.memberVotes pid m
        encryptedProposals := fun pid =>
          if pid = proposalId then
            { s.encryptedProposals proposalId with
              encryptedVoteCount :=
                fheAdd (s.encryptedProposals proposalId).encryptedVoteCount
                  encryptedVoteCount
              encryptedCostSum :=
                fheAdd (s.encryptedProposals proposalId).encryptedCostSum
                  (fheMul encryptedVoteCount encryptedVoteCount) }
          else s.encryptedProposals pid }
  else .error .VotingClosed

/-- Source lines 697-707, `requestVoteTallyDecryption`: requires the
voting window to be over (reverting "Voting still open"), then hands
the two accumulator ciphertexts to the external decryption oracle.
The request id returned by `FHE.requestDecryption` is bound to a local
variable and discarded; no request record is written to storage, so
the contract state is returned unchanged. -/
def requestVoteTallyDecryption (s : ContractState) (now proposalId : Nat) :
    Except VMError ContractState :=
  if (s.encryptedProposals proposalId).endTime ≤ now then .ok s
  else .error .VotingStillOpen

/-- Source lines 710-727, `decryptVoteTally`: `FHE.checkSignatures`
is an external verifier whose verdict on `(requestId, cleartexts,
proof)` is passed here as `proofOk`; it reverts on an invalid proof.
On success the cleartexts are abi-decoded into a `uint32[]` and
`proposalId` is set to `requestId`, but both decoded values are then
dropped — the stores are commented out in the source ("Store decrypted
results (in real implementation)") — and only an event is emitted, so
the contract state is returned unchanged. -/
def decryptVoteTally (s : ContractState) (requestId : Nat)
    (cleartexts : List Nat) (proofOk : Bool) :
    Except VMError ContractState :=
  if proofOk then .ok s else .error .InvalidProof

/-- Source lines 730-732, `depositTokens`: adds `msg.value` to the
sender's balance.  Checked `uint256` arithmetic reverts on overflow
(Solidity 0.8 panic, mapped to `Overflow`); no positivity check is
performed on the amount. -/
def depositTokens (s : ContractState) (sender value : Nat) :
    Except VMError ContractState :=
  if s.memberTokenBalances sender + value < UINT256_MOD then
    .ok { s with
      memberTokenBalances := fun m =>
        if m = sender then s.memberTokenBalances sender + value
        else s.memberTokenBalances m }
  else .error .Overflow

/-- Source lines 735-739, `withdrawTokens`: requires a sufficient
balance (reverting "Insufficient balance"), then decreases it; the
external fund transfer is out of scope. -/
def withdrawTokens (s : ContractState) (sender amount : Nat) :
    Except VMError ContractState :=
  if amount ≤ s.memberTokenBalances sender then
    .ok { s with
      memberTokenBalances := fun m =>
        if m = sender then s.memberTokenBalances sender - amount
        else s.memberTokenBalances m }
  else .error .InsufficientBalance

/-- A sequence of `castEncryptedVote` calls on one proposal at one
timestamp: each list entry is `(member, encrypted vote count)`; the
sequence stops at the first revert. -/
def castVotes (s : ContractState) (now pid : Nat)
    (votes : List (Nat × Nat)) : Except VMError ContractState :=
  match votes with
  | [] => .ok s
  | (m, v) :: rest =>
    match castEncryptedVote s now m pid v with
    | .ok s' => castVotes s' now pid rest
    | .error e => .error e

/-- The error component of a call result, if any. -/
def errOf (r : Except VMError ContractState) : Option VMError :=
  match r with
  | .error e => some e
  | .ok _ => none

/-- One successful public transaction of the contract. -/
inductive Step : ContractState → ContractState → Prop where
  | create (s s' : ContractState) (now t d : Nat) :
      createEncryptedProposal s now t d = .ok s' → Step s s'
  | vote (s s' : ContractState) (now sender pid v : Nat) :
      castEncryptedVote s now sender pid v = .ok s' → Step s s'
  | request (s s' : ContractState) (now pid : Nat) :
      requestVoteTallyDecryption s now pid = .ok s' → Step s s'
  | fulfill (s s' : ContractState) (rid : Nat) (cts : List Nat) (ok : Bool) :
      decryptVoteTally s rid cts ok = .ok s' → Step s s'
  | deposit (s s' : ContractState) (sender value : Nat) :
      depositTokens s sender value = .ok s' → Step s s'
  | withdraw (s s' : ContractState) (sender amount : Nat) :
      withdrawTokens s sender amount = .ok s' → Step s s'

/-- States reachable from a freshly deployed contract by successful
transactions. -/
def Reachable (s : ContractState) : Prop :=
  Relation.ReflTransGen Step initState s

/-- A concrete state used to evaluate the operations: one proposal
with id 1, zero accumulators, `endTime = 100`, no votes cast and every
balance zero.  (Its short deadline makes examples readable; reachable
states are used where a claim needs reachability.) -/
def stateOneProposal : ContractState :=
  { proposalCount := 1
    encryptedProposals := fun pid =>
      if pid = 1 then
        { id := 1
          encryptedTitle := 5
          encryptedDetails := 6
          encryptedVoteCount := 0
          encryptedCostSum := 0
          endTime := 100 }
      else defaultProposal
    memberVotes := fun _ _ => defaultMemberVote
    memberTokenBalances := fun _ => 0 }

/-- The state written by a successful `castEncryptedVote`. -/
def castResult (s : ContractState) (sender pid v : Nat) : ContractState :=
  { s with
    memberVotes := fun q m =>
      if q = pid ∧ m = sender then
        { encryptedVotes := v, hasVoted := true }
      else s.memberVotes q m
    encryptedProposals := fun q =>
      if q = pid then
        { s.encryptedProposals pid with
          encryptedVoteCount :=
            fheAdd (s.encryptedProposals pid).encryptedVoteCount v
          encryptedCostSum :=
            fheAdd (s.encryptedProposals pid).encryptedCostSum (fheMul v v) }
      else s.encryptedProposals q }

theorem castEncryptedVote_ok_inv {s s' : ContractState} {now sender pid v : Nat}
    (h : castEncryptedVote s now sender pid v = .ok s') :
    now < (s.encryptedProposals pid).endTime ∧
    (s.memberVotes pid sender).hasVoted = false ∧
    s' = castResult s sender pid v := by
  unfold castEncryptedVote at h
  by_cases h1 : now < (s.encryptedProposals pid).endTime
  · rw [if_pos h1] at h
    by_cases h2 : (s.memberVotes pid sender).hasVoted = true
    · rw [if_pos h2] at h
      exact (Except.noConfusion h)
    · rw [if_neg h2] at h
      exact ⟨h1, by simpa using h2, (Except.ok.inj h).symm⟩
  · rw [if_neg h1] at h
    exact (Except.noConfusion h)

theorem castEncryptedVote_ok {s : ContractState} {now sender pid v : Nat}
    (h1 : now < (s.encryptedProposals pid).endTime)
    (h2 : (s.memberVotes pid sender).hasVoted = false) :
    castEncryptedVote s now sender pid v = .ok (castResult s sender pid v) := by
  unfold castEncryptedVote
  rw [if_pos h1, if_neg (by simp [h2])]
  rfl

theorem createEncryptedProposal_ok_inv {s s' : ContractState} {now t d : Nat}
    (h : createEncryptedProposal s now t d = .ok s') :
    s.proposalCount + 1 < UINT256_MOD ∧
    s' = { s with
      proposalCount := s.proposalCount + 1
      encryptedProposals := fun pid =>
        if pid = s.proposalCount + 1 then
          { id := s.proposalCount + 1
            encryptedTitle := t
            encryptedDetails := d
            encryptedVoteCount := fheAsEuint32 0
            encryptedCostSum := fheAsEuint32 0
            endTime := now + VOTING_PERIOD }
        else s.encryptedProposals pid } := by
  unfold createEncryptedProposal at h
  by_cases h1 : s.proposalCount + 1 < UINT256_MOD
  · rw [if_pos h1] at h
    exact ⟨h1, (Except.ok.inj h).symm⟩
  · rw [if_neg h1] at h
    exact (Except.noConfusion h)

theorem requestVoteTallyDecryption_ok_inv {s s' : ContractState} {now pid : Nat}
    (h : requestVoteTallyDecryption s now pid = .ok s') : s' = s := by
  unfold requestVoteTallyDecryption at h
  by_cases h1 : (s.encryptedProposals pid).endTime ≤ now
  · rw [if_pos h1] at h
    exact (Except.ok.inj h).symm
  · rw [if_neg h1] at h
    exact (Except.noConfusion h)

theorem decryptVoteTally_ok_inv {s s' : ContractState} {rid : Nat}
    {cts : List Nat} {ok : Bool}
    (h : decryptVoteTally s rid cts ok = .ok s') : s' = s := by
  unfold decryptVoteTally at h
  cases ok with
  | true => exact (Except.ok.inj h).symm
  | false => exact (Except.noConfusion h)

theorem depositTokens_ok_inv {s s' : ContractState} {sender value : Nat}
    (h : depositTokens s sender value = .ok s') :
    s.memberTokenBalances sender + value < UINT256_MOD ∧
    s' = { s with
      memberTokenBalances := fun m =>
        if m = sender then s.memberTokenBalances sender + value
        else s.memberTokenBalances m } := by
  unfold depositTokens at h
  by_cases h1 : s.memberTokenBalances sender + value < UINT256_MOD
  · rw [if_pos h1] at h
    exact ⟨h1, (Except.ok.inj h).symm⟩
  · rw [if_neg h1] at h
    exact (Except.noConfusion h)

theorem withdrawTokens_ok_inv {s s' : ContractState} {sender amount : Nat}
    (h : withdrawTokens s sender amount = .ok s') :
    amount ≤ s.memberTokenBalances sender ∧
    s' = { s with
      memberTokenBalances := fun m =>
        if m = sender then s.memberTokenBalances sender - amount
        else s.memberTokenBalances m } := by
  unfold withdrawTokens at h
  by_cases h1 : amount ≤ s.memberTokenBalances sender
  · rw [if_pos h1] at h
    exact ⟨h1, (Except.ok.inj h).symm⟩
  · rw [if_neg h1] at h
    exact (Except.noConfusion h)

/-- A set `hasVoted` flag survives any single successful transaction:
no operation of the contract ever writes `false` into the flag. -/
theorem step_hasVoted_mono {s s' : ContractState} (hstep : Step s s')
    (pid m : Nat) (h : (s.memberVotes pid m).hasVoted = true) :
    (s'.memberVotes pid m).hasVoted = true := by
  cases hstep with
  | create now t d hc =>
    obtain ⟨-, rfl⟩ := createEncryptedProposal_ok_inv hc
    exact h
  | vote now sender pid' v hc =>
    obtain ⟨-, -, rfl⟩ := castEncryptedVote_ok_inv hc
    simp only [castResult]
    split
    · rfl
    · exact h
  | request now pid' hc =>
    obtain rfl := requestVoteTallyDecryption_ok_inv hc
    exact h
  | fulfill rid cts ok hc =>
    obtain rfl := decryptVoteTally_ok_inv hc
    exact h
  | deposit sender value hc =>
    obtain ⟨-, rfl⟩ := depositTokens_ok_inv hc
    exact h
  | withdraw sender amount hc =>
    obtain ⟨-, rfl⟩ := withdrawTokens_ok_inv hc
    exact h

/-- Proposal slots above `proposalCount` still hold the mapping's zero
value. -/
def ProposalsFresh (s : ContractState) : Prop :=
  ∀ pid, s.proposalCount < pid → s.encryptedProposals pid = defaultProposal

theorem step_fresh {s s' : ContractState} (hstep : Step s s')
    (h : ProposalsFresh s) : ProposalsFresh s' := by
  cases hstep with
  | create now t d hc =>
    obtain ⟨-, rfl⟩ := createEncryptedProposal_ok_inv hc
    intro pid hpid
    simp only at hpid ⊢
    rw [if_neg (by omega)]
    exact h pid (by omega)
  | vote now sender pid' v hc =>
    obtain ⟨hopen, -, rfl⟩ := castEncryptedVote_ok_inv hc
    intro pid hpid
    simp only [castResult] at hpid ⊢
    have hne : pid ≠ pid' := by
      intro heq
      rw [h pid' (heq ▸ hpid)] at hopen
      exact absurd hopen (by simp [defaultProposal])
    rw [if_neg hne]
    exact h pid hpid
  | request now pid' hc =>
    obtain rfl := requestVoteTallyDecryption_ok_inv hc
    exact h
  | fulfill rid cts ok hc =>
    obtain rfl := decryptVoteTally_ok_inv hc
    exact h
  | deposit sender value hc =>
    obtain ⟨-, rfl⟩ := depositTokens_ok_inv hc
    exact h
  | withdraw sender amount hc =>
    obtain ⟨-, rfl⟩ := withdrawTokens_ok_inv hc
    exact h

/-- `hasVoted` flags are monotone along any sequence of successful
transactions. -/
theorem steps_hasVoted_mono {s s' : ContractState}
    (hsteps : Relation.ReflTransGen Step s s') (pid m : Nat)
    (h : (s.memberVotes pid m).hasVoted = true) :
    (s'.memberVotes pid m).hasVoted = true := by
  induction hsteps with
  | refl => exact h
  | tail hab hbc ih => exact step_hasVoted_mono hbc pid m ih

/-- In every reachable state, a proposal id above `proposalCount` is
unknown: its slot holds the zero value, in particular `endTime = 0`. -/
theorem reachable_fresh {s : ContractState} (h : Reachable s) :
    ProposalsFresh s := by
  unfold Reachable at h
  induction h with
  | refl => intro pid _; rfl
  | tail hab hbc ih => exact step_fresh hbc ih

/-- Folding a list of `(member, vote count)` pairs through
`castEncryptedVote` succeeds whenever the window is open and no listed
member has voted, and the two accumulators end at the mod-2^32 sums of
the counts and of their squares. -/
theorem castVotes_spec (votes : List (Nat × Nat)) :
    ∀ (s : ContractState) (now pid : Nat),
      now < (s.encryptedProposals pid).endTime →
      (s.encryptedProposals pid).encryptedVoteCount < UINT32_MOD →
      (s.encryptedProposals pid).encryptedCostSum < UINT32_MOD →
      (∀ mv ∈ votes, (s.memberVotes pid mv.1).hasVoted = false) →
      (votes.map Prod.fst).Nodup →
      ∃ s', castVotes s now pid votes = .ok s' ∧
        (s'.encryptedProposals pid).encryptedVoteCount =
          ((s.encryptedProposals pid).encryptedVoteCount +
            (votes.map Prod.snd).sum) % UINT32_MOD ∧
        (s'.encryptedProposals pid).encryptedCostSum =
          ((s.encryptedProposals pid).encryptedCostSum +
            (votes.map (fun mv => mv.2 * mv.2)).sum) % UINT32_MOD := by
  induction votes with
  | nil =>
    intro s now pid hopen hlt1 hlt2 hnv hnd
    exact ⟨s, rfl, by simp [Nat.mod_eq_of_lt hlt1],
      by simp [Nat.mod_eq_of_lt hlt2]⟩
  | cons mv rest ih =>
    intro s now pid hopen hlt1 hlt2 hnv hnd
    obtain ⟨m, v⟩ := mv
    have hM : 0 < UINT32_MOD := by norm_num [UINT32_MOD]
    have hnv0 : (s.memberVotes pid m).hasVoted = false :=
      hnv (m, v) (List.mem_cons_self _ _)
    have hstep : castEncryptedVote s now m pid v = .ok (castResult s m pid v) :=
      castEncryptedVote_ok hopen hnv0
    have hprop : (castResult s m pid v).encryptedProposals pid =
        { s.encryptedProposals pid with
          encryptedVoteCount :=
            fheAdd (s.encryptedProposals pid).encryptedVoteCount v
          encryptedCostSum :=
            fheAdd (s.encryptedProposals pid).encryptedCostSum (fheMul v v) } := by
      simp [castResult]
    have hopen1 : now < ((castResult s m pid v).encryptedProposals pid).endTime := by
      rw [hprop]
      exact hopen
    have hlt1' : ((castResult s m pid v).encryptedProposals pid).encryptedVoteCount
        < UINT32_MOD := by
      rw [hprop]
      exact Nat.mod_lt _ hM
    have hlt2' : ((castResult s m pid v).encryptedProposals pid).encryptedCostSum
        < UINT32_MOD := by
      rw [hprop]
      exact Nat.mod_lt _ hM
    have hnd' : (m :: rest.map Prod.fst).Nodup := by
      simpa only [List.map_cons] using hnd
    have hnddec := List.nodup_cons.mp hnd'
    have hnv1 : ∀ mv' ∈ rest,
        ((castResult s m pid v).memberVotes pid mv'.1).hasVoted = false := by
      intro mv' hmem
      have hne : mv'.1 ≠ m := by
        intro heq
        exact hnddec.1 (heq ▸ List.mem_map_of_mem Prod.fst hmem)
      simp only [castResult]
      rw [if_neg (by simp [hne])]
      exact hnv mv' (List.mem_cons_of_mem _ hmem)
    obtain ⟨s', hrun, hv, hc⟩ :=
      ih (castResult s m pid v) now pid hopen1 hlt1' hlt2' hnv1 hnddec.2
    refine ⟨s', ?_, ?_, ?_⟩
    · simp only [castVotes, hstep]
      exact hrun
    · rw [hv, hprop]
      simp only [fheAdd, List.map_cons, List.sum_cons]
      rw [Nat.mod_add_mod, Nat.add_assoc]
    · rw [hc, hprop]
      simp only [fheAdd, fheMul, List.map_cons, List.sum_cons]
      rw [Nat.add_mod_mod, Nat.mod_add_mod, Nat.add_assoc]

/-- C1: the claim fails on the code.  `castEncryptedVote` performs no
balance check and no deduction — the `sufficientTokens` modifier is
declared but never attached, and no plaintext vote count is even
passed.  Member 7 holds 0 tokens, so a 2-vote cost of 4 exceeds the
balance, yet the call on the open proposal 1 succeeds (no
`InsufficientBalance` revert) and the balance stays 0 instead of
being reduced by the quadratic cost. -/
theorem c1_castVote_ignores_balance :
    stateOneProposal.memberTokenBalances 7 = 0 ∧
    2 * 2 > stateOneProposal.memberTokenBalances 7 ∧
    errOf (castEncryptedVote stateOneProposal 0 7 1 2) = none ∧
    ((castEncryptedVote stateOneProposal 0 7 1 2).toOption.map
      (fun t => t.memberTokenBalances 7)) = some 0 := by
  decide

/-- C2 fails as literally stated: euint32 accumulation wraps modulo
2^32.  Two successful votes of 2^31 each by distinct members 7 and 8
leave a decrypted tally of 0, not the true sum 2^32. -/
theorem c2_sum_overflow_counterexample :
    ((castVotes stateOneProposal 0 1 [(7, 2 ^ 31), (8, 2 ^ 31)]).toOption.map
      (fun t => fheDecrypt (t.encryptedProposals 1).encryptedVoteCount)) =
      some 0 ∧
    2 ^ 31 + 2 ^ 31 ≠ 0 := by
  decide

/-- C2 (amended): for every sequence of successful `castVote` calls by
pairwise-distinct members on one proposal whose accumulators start at
encrypted zero, the final `encryptedVoteCount` decrypts to the sum of
the vote counts reduced modulo 2^32 and the final `encryptedCostSum`
to the sum of their squares modulo 2^32 (euint32 arithmetic wraps),
and both final values are identical for every permutation of the call
order. -/
theorem c2_accumulators_order_independent_mod
    (votes votes' : List (Nat × Nat)) (s : ContractState) (now pid : Nat)
    (hperm : votes.Perm votes')
    (hopen : now < (s.encryptedProposals pid).endTime)
    (hzv : (s.encryptedProposals pid).encryptedVoteCount = 0)
    (hzc : (s.encryptedProposals pid).encryptedCostSum = 0)
    (hnv : ∀ mv ∈ votes, (s.memberVotes pid mv.1).hasVoted = false)
    (hnd : (votes.map Prod.fst).Nodup) :
    ∃ s1 s2, castVotes s now pid votes = .ok s1 ∧
      castVotes s now pid votes' = .ok s2 ∧
      fheDecrypt (s1.encryptedProposals pid).encryptedVoteCount =
        (votes.map Prod.snd).sum % UINT32_MOD ∧
      fheDecrypt (s1.encryptedProposals pid).encryptedCostSum =
        (votes.map (fun mv => mv.2 * mv.2)).sum % UINT32_MOD ∧
      (s2.encryptedProposals pid).encryptedVoteCount =
        (s1.encryptedProposals pid).encryptedVoteCount ∧
      (s2.encryptedProposals pid).encryptedCostSum =
        (s1.encryptedProposals pid).encryptedCostSum := by
  have hM : 0 < UINT32_MOD := by norm_num [UINT32_MOD]
  have hlt1 : (s.encryptedProposals pid).encryptedVoteCount < UINT32_MOD := by
    rw [hzv]
    exact hM
  have hlt2 : (s.encryptedProposals pid).encryptedCostSum < UINT32_MOD := by
    rw [hzc]
    exact hM
  obtain ⟨s1, h1, hv1, hc1⟩ :=
    castVotes_spec votes s now pid hopen hlt1 hlt2 hnv hnd
  have hnv2 : ∀ mv ∈ votes', (s.memberVotes pid mv.1).hasVoted = false :=
    fun mv hm => hnv mv (hperm.mem_iff.mpr hm)
  have hnd2 : (votes'.map Prod.fst).Nodup :=
    ((hperm.map Prod.fst).nodup_iff).mp hnd
  obtain ⟨s2, h2, hv2, hc2⟩ :=
    castVotes_spec votes' s now pid hopen hlt1 hlt2 hnv2 hnd2
  refine ⟨s1, s2, h1, h2, ?_, ?_, ?_, ?_⟩
  · simp [fheDecrypt, hv1, hzv]
  · simp [fheDecrypt, hc1, hzc]
  · rw [hv2, hv1, (hperm.map Prod.snd).sum_eq]
  · rw [hc2, hc1, (hperm.map (fun mv => mv.2 * mv.2)).sum_eq]

/-- Witness for C2 (amended), spec scenario B: members 7 and 8 cast 2
and 4 votes in either order; both orders succeed and the accumulators
decrypt to voteCount 6 and costSum 20. -/
theorem c2_accumulators_order_independent_mod_witness :
    ((castVotes stateOneProposal 0 1 [(7, 2), (8, 4)]).toOption.map
      (fun t => ((t.encryptedProposals 1).encryptedVoteCount,
        (t.encryptedProposals 1).encryptedCostSum))) = some (6, 20) ∧
    ((castVotes stateOneProposal 0 1 [(8, 4), (7, 2)]).toOption.map
      (fun t => ((t.encryptedProposals 1).encryptedVoteCount,
        (t.encryptedProposals 1).encryptedCostSum))) = some (6, 20) := by
  obtain ⟨s1, s2, h1, h2, hv1, hc1, hv2, hc2⟩ :=
    c2_accumulators_order_independent_mod [(7, 2), (8, 4)] [(8, 4), (7, 2)]
      stateOneProposal 0 1 (by decide) (by decide) (by decide) (by decide)
      (by decide) (by decide)
  have ev1 : (s1.encryptedProposals 1).encryptedVoteCount = 6 := by
    simpa [fheDecrypt, UINT32_MOD] using hv1
  have ec1 : (s1.encryptedProposals 1).encryptedCostSum = 20 := by
    simpa [fheDecrypt, UINT32_MOD] using hc1
  rw [h1, h2]
  simp [Except.toOption, ev1, ec1, hv2, hc2]

/-- C3 fails as literally stated: after member 7 successfully votes on
proposal 1 (deadline 100), a second vote by 7 at time 200 reverts with
`VotingClosed` — the `votingOpen` modifier fires before the
`hasVoted` check — not with `AlreadyVoted`. -/
theorem c3_second_vote_after_close_counterexample :
    ((castEncryptedVote stateOneProposal 0 7 1 2).toOption.map
      (fun s1 => errOf (castEncryptedVote s1 200 7 1 2))) =
      some (some VMError.VotingClosed) ∧
    some VMError.VotingClosed ≠ some VMError.AlreadyVoted := by
  decide

/-- C3 (amended): for every (proposal, member) pair the `hasVoted`
flag, once set by a successful `castVote`, stays true across every
later successful transaction, and every later `castVote` by the same
member on the same proposal reverts — with `AlreadyVoted` while voting
is open, with `VotingClosed` once `now >= endTime` (the `votingOpen`
modifier fires first) — and a revert changes no state. -/
theorem c3_hasVoted_permanent (s s1 s2 : ContractState)
    (now sender pid v : Nat)
    (hcast : castEncryptedVote s now sender pid v = .ok s1)
    (hsteps : Relation.ReflTransGen Step s1 s2) :
    (s2.memberVotes pid sender).hasVoted = true ∧
    ∀ now' v', castEncryptedVote s2 now' sender pid v' =
      (if now' < (s2.encryptedProposals pid).endTime then
        Except.error VMError.AlreadyVoted
       else Except.error VMError.VotingClosed) := by
  obtain ⟨-, -, rfl⟩ := castEncryptedVote_ok_inv hcast
  have h1 : ((castResult s sender pid v).memberVotes pid sender).hasVoted = true := by
    simp [castResult]
  have h2 := steps_hasVoted_mono hsteps pid sender h1
  refine ⟨h2, ?_⟩
  intro now' v'
  unfold castEncryptedVote
  by_cases hop : now' < (s2.encryptedProposals pid).endTime
  · rw [if_pos hop, if_pos h2, if_pos hop]
  · rw [if_neg hop, if_neg hop]

/-- Witness for C3 (amended): member 7 votes on proposal 1 at time 0;
an immediate second vote at time 50 (window still open) reverts with
`AlreadyVoted`. -/
theorem c3_hasVoted_permanent_witness :
    ((castEncryptedVote stateOneProposal 0 7 1 2).toOption.map
      (fun s1 => errOf (castEncryptedVote s1 50 7 1 3))) =
      some (some VMError.AlreadyVoted) := by
  cases hc : castEncryptedVote stateOneProposal 0 7 1 2 with
  | error e =>
    have hok : errOf (castEncryptedVote stateOneProposal 0 7 1 2) = none := by
      decide
    rw [hc] at hok
    exact absurd hok (by simp [errOf])
  | ok s1 =>
    obtain ⟨-, hsecond⟩ :=
      c3_hasVoted_permanent stateOneProposal s1 s1 0 7 1 2 hc
        Relation.ReflTransGen.refl
    have hend : (s1.encryptedProposals 1).endTime = 100 := by
      obtain ⟨-, -, rfl⟩ := castEncryptedVote_ok_inv hc
      decide
    simp only [Except.toOption, Option.map]
    rw [hsecond 50 3, if_pos (by rw [hend]; norm_num)]
    rfl

/-- C4: the claim's success half fails on the code.  An invalid proof
does revert with `InvalidProof` before any write, but on a valid proof
`decryptVoteTally` abi-decodes the cleartexts and then drops them —
the stores are commented out in the source — so the state is returned
entirely unchanged and no decrypted tally is ever recorded, for any
request id. -/
theorem c4_fulfill_stores_nothing (s : ContractState) (requestId : Nat)
    (cleartexts : List Nat) :
    decryptVoteTally s requestId cleartexts false =
      Except.error VMError.InvalidProof ∧
    decryptVoteTally s requestId cleartexts true = Except.ok s :=
  ⟨rfl, rfl⟩

/-- C5: the claim fails on the code.  `MAX_VOTES_PER_PROPOSAL = 100`
is declared but never read: a vote of 101 by member 7 on the open
proposal 1 succeeds, is accumulated into both tallies and marks the
member as having voted, instead of reverting with
`VoteCountExceedsLimit`. -/
theorem c5_vote_limit_not_enforced :
    MAX_VOTES_PER_PROPOSAL < MAX_VOTES_PER_PROPOSAL + 1 ∧
    ((castEncryptedVote stateOneProposal 0 7 1
        (MAX_VOTES_PER_PROPOSAL + 1)).toOption.map
      (fun t => ((t.encryptedProposals 1).encryptedVoteCount,
        (t.encryptedProposals 1).encryptedCostSum,
        (t.memberVotes 1 7).hasVoted))) = some (101, 10201, true) := by
  decide

/-- C6: the claim fails on the code beyond its first clause.  Before
`endTime` the request does revert with `VotingStillOpen` (time 50,
deadline 100), but after `endTime` the call returns with the state
completely unchanged — the oracle's request id is discarded and
nothing is recorded as `Pending` — and an immediate second request
succeeds identically instead of reverting with
`RequestAlreadyPending`. -/
theorem c6_no_pending_tracking :
    requestVoteTallyDecryption stateOneProposal 50 1 =
      Except.error VMError.VotingStillOpen ∧
    requestVoteTallyDecryption stateOneProposal 200 1 =
      Except.ok stateOneProposal ∧
    ((requestVoteTallyDecryption stateOneProposal 200 1).toOption.map
      (fun s1 => errOf (requestVoteTallyDecryption s1 200 1))) =
      some none :=
  ⟨rfl, rfl, by decide⟩

/-- C7 fails as literally stated: proposal 2 does not exist in
`stateOneProposal` (`proposalCount = 1`, the slot holds the zero
value), yet a vote on it reverts with `VotingClosed` — the absent
proposal's `endTime` is 0 — not with `ProposalNotFound`. -/
theorem c7_unknown_proposal_counterexample :
    stateOneProposal.proposalCount < 2 ∧
    stateOneProposal.encryptedProposals 2 = defaultProposal ∧
    errOf (castEncryptedVote stateOneProposal 0 7 2 1) =
      some VMError.VotingClosed ∧
    some VMError.VotingClosed ≠ some VMError.ProposalNotFound := by
  refine ⟨by decide, by decide, by decide, by decide⟩

/-- C7 (amended): in every reachable state, a `castVote` on an unknown
proposal id (one above `proposalCount`, whose slot still holds
`endTime = 0`) and a `castVote` on an existing proposal with
`now >= endTime` both revert with `VotingClosed`; the revert happens
in the `votingOpen` modifier before any write, so no accumulator
changes. -/
theorem c7_unknown_or_closed_rejected (s : ContractState)
    (now sender pid v : Nat) (hreach : Reachable s)
    (h : s.proposalCount < pid ∨ (s.encryptedProposals pid).endTime ≤ now) :
    castEncryptedVote s now sender pid v =
      Except.error VMError.VotingClosed := by
  have hclosed : ¬ now < (s.encryptedProposals pid).endTime := by
    rcases h with h | h
    · rw [reachable_fresh hreach pid h]
      simp [defaultProposal]
    · omega
  unfold castEncryptedVote
  rw [if_neg hclosed]

/-- Witness for C7 (amended): on the freshly deployed contract,
proposal 1 does not exist and voting on it reverts with
`VotingClosed`. -/
theorem c7_unknown_or_closed_rejected_witness :
    errOf (castEncryptedVote initState 0 7 1 1) =
      some VMError.VotingClosed := by
  rw [c7_unknown_or_closed_rejected initState 0 7 1 1
    Relation.ReflTransGen.refl (Or.inl (by decide))]
  rfl

/-- C8: `createEncryptedProposal` always succeeds (the hypothesis only
excludes overflow of the uint256 proposal counter, which would require
2^256 prior transactions), assigns the next id `proposalCount + 1` —
so ids are strictly increasing across calls and hence unique —
initialises both accumulators to the encryption of zero, sets
`endTime = now + VOTING_PERIOD`, and touches no other storage. -/
theorem c8_createProposal_correct (s : ContractState) (now t d : Nat)
    (h : s.proposalCount + 1 < UINT256_MOD) :
    ∃ s', createEncryptedProposal s now t d = .ok s' ∧
      s'.proposalCount = s.proposalCount + 1 ∧
      s.proposalCount < s'.proposalCount ∧
      s'.encryptedProposals (s.proposalCount + 1) =
        { id := s.proposalCount + 1
          encryptedTitle := t
          encryptedDetails := d
          encryptedVoteCount := fheAsEuint32 0
          encryptedCostSum := fheAsEuint32 0
          endTime := now + VOTING_PERIOD } ∧
      (∀ pid, pid ≠ s.proposalCount + 1 →
        s'.encryptedProposals pid = s.encryptedProposals pid) ∧
      s'.memberVotes = s.memberVotes ∧
      s'.memberTokenBalances = s.memberTokenBalances := by
  unfold createEncryptedProposal
  rw [if_pos h]
  refine ⟨_, rfl, rfl, Nat.lt_succ_self _, by simp, ?_, rfl, rfl⟩
  intro pid hpid
  simp [hpid]

/-- Witness for C8: the first proposal on a fresh contract gets id 1,
a zero vote accumulator and deadline `VOTING_PERIOD`. -/
theorem c8_createProposal_correct_witness :
    ((createEncryptedProposal initState 0 5 6).toOption.map
      (fun t => (t.proposalCount,
        (t.encryptedProposals 1).encryptedVoteCount,
        (t.encryptedProposals 1).endTime))) =
      some (1, 0, VOTING_PERIOD) := by
  obtain ⟨s', h1, h2, -, h4, -⟩ :=
    c8_createProposal_correct initState 0 5 6 (by decide)
  have h2' : s'.proposalCount = 1 := by
    simpa [initState] using h2
  have h4' : s'.encryptedProposals 1 =
      { id := 1
        encryptedTitle := 5
        encryptedDetails := 6
        encryptedVoteCount := 0
        encryptedCostSum := 0
        endTime := VOTING_PERIOD } := by
    simpa [initState, fheAsEuint32, UINT32_MOD] using h4
  rw [h1]
  simp [Except.toOption, h2', h4']

/-- C9 fails as literally stated: `depositTokens` has no positivity
check, so a deposit of 0 succeeds (and leaves the balance at 0)
instead of being rejected. -/
theorem c9_zero_deposit_counterexample :
    ((depositTokens initState 7 0).toOption.map
      (fun t => t.memberTokenBalances 7)) = some 0 ∧
    ¬ 0 < 0 := by
  decide

/-- C9 (amended): `depositTokens` accepts any amount, including zero;
a successful deposit increases exactly the sender's balance by exactly
the amount and touches nothing else, and the only failure is balance
overflow past 2^256, which reverts (`Overflow`) instead of wrapping
the balance. -/
theorem c9_deposit_exact_or_overflow :
    (∀ (s : ContractState) (sender value : Nat),
      s.memberTokenBalances sender + value < UINT256_MOD →
      ∃ s', depositTokens s sender value = .ok s' ∧
        s'.memberTokenBalances sender =
          s.memberTokenBalances sender + value ∧
        (∀ m, m ≠ sender →
          s'.memberTokenBalances m = s.memberTokenBalances m) ∧
        s'.proposalCount = s.proposalCount ∧
        s'.encryptedProposals = s.encryptedProposals ∧
        s'.memberVotes = s.memberVotes) ∧
    (∀ (s : ContractState) (sender value : Nat),
      UINT256_MOD ≤ s.memberTokenBalances sender + value →
      depositTokens s sender value = .error .Overflow) := by
  constructor
  · intro s sender value h
    unfold depositTokens
    rw [if_pos h]
    refine ⟨_, rfl, by simp, ?_, rfl, rfl, rfl⟩
    intro m hm
    simp [hm]
  · intro s sender value h
    unfold depositTokens
    rw [if_neg (by omega)]

/-- Witness for C9 (amended): a deposit of 5 by member 7 on the fresh
contract leaves member 7 with balance 5. -/
theorem c9_deposit_exact_or_overflow_witness :
    ((depositTokens initState 7 5).toOption.map
      (fun t => t.memberTokenBalances 7)) = some 5 := by
  obtain ⟨s', h1, h2, -⟩ :=
    c9_deposit_exact_or_overflow.1 initState 7 5 (by decide)
  rw [h1]
  simpa [Except.toOption] using h2

/-- C10: a successful `castVote` by `sender` on proposal `pid` leaves
`proposalCount`, every token balance, every other proposal, the voted
proposal's id, title, details and deadline, and every other
(proposal, member) vote record exactly as before; only the two
accumulators of `pid` and the `(pid, sender)` record change. -/
theorem c10_castVote_frame (s s' : ContractState) (now sender pid v : Nat)
    (h : castEncryptedVote s now sender pid v = .ok s') :
    s'.proposalCount = s.proposalCount ∧
    s'.memberTokenBalances = s.memberTokenBalances ∧
    (∀ q, q ≠ pid → s'.encryptedProposals q = s.encryptedProposals q) ∧
    (s'.encryptedProposals pid).id = (s.encryptedProposals pid).id ∧
    (s'.encryptedProposals pid).encryptedTitle =
      (s.encryptedProposals pid).encryptedTitle ∧
    (s'.encryptedProposals pid).encryptedDetails =
      (s.encryptedProposals pid).encryptedDetails ∧
    (s'.encryptedProposals pid).endTime =
      (s.encryptedProposals pid).endTime ∧
    (∀ q m, ¬(q = pid ∧ m = sender) →
      s'.memberVotes q m = s.memberVotes q m) := by
  obtain ⟨-, -, rfl⟩ := castEncryptedVote_ok_inv h
  refine ⟨rfl, rfl, ?_, by simp [castResult], by simp [castResult],
    by simp [castResult], by simp [castResult], ?_⟩
  · intro q hq
    simp only [castResult]
    rw [if_neg hq]
  · intro q m hqm
    simp only [castResult]
    rw [if_neg hqm]

/-- Witness for C10: after member 7 votes on proposal 1, member 9's
balance, member 8's vote record and proposal 1's deadline are
untouched. -/
theorem c10_castVote_frame_witness :
    ((castEncryptedVote stateOneProposal 0 7 1 2).toOption.map
      (fun t => (t.proposalCount, t.memberTokenBalances 9,
        (t.encryptedProposals 1).endTime,
        (t.memberVotes 1 8).hasVoted))) = some (1, 0, 100, false) := by
  cases hc : castEncryptedVote stateOneProposal 0 7 1 2 with
  | error e =>
    have hok : errOf (castEncryptedVote stateOneProposal 0 7 1 2) = none := by
      decide
    rw [hc] at hok
    exact absurd hok (by simp [errOf])
  | ok s' =>
    obtain ⟨h1, h2, -, -, -, -, h7, h8⟩ :=
      c10_castVote_frame stateOneProposal s' 0 7 1 2 hc
    simp only [Except.toOption, Option.map]
    rw [h1, congrFun h2 9, h7, h8 1 8 (by simp)]
    rfl

end QuadraticVoteFHE
